import Mathlib

/-!
Shallow embedding of the portfolio valuation and performance-analytics
pipeline of `pages/Portfolio.py` (repository CorpBonds), together with
theorems settling the specification's claims about it.

Conventions of the embedding:
* Python floats are modelled as exact numbers: `ℚ` wherever the source only
  adds, multiplies, divides and compares, and `ℝ` where the source takes
  real powers or square roots (CAGR, volatility, Sharpe).
* A pandas `Series` indexed by dates is modelled as a function
  `ℕ → Option ℚ`: `none` at a date is a missing observation (`NaN` /
  date absent from the index).  `sort_index()` has no counterpart because
  the function model is unordered.
* `yf.Ticker(t).info` is modelled by `FetchOutcome`: `err` is a raised
  exception, `info cp` a returned info mapping whose optional
  `currentPrice` entry is `cp`.
* The Streamlit session-state ledger `st.session_state.transactions` is
  passed explicitly as a `List Txn`.
-/

namespace CorpBonds

/-- The `action` field of a transaction dict: `"Buy"` or `"Sell"`
(`add_transaction` is only ever called with these two strings). -/
inductive Action where
  | Buy : Action
  | Sell : Action
deriving DecidableEq, Repr

/-- One entry of `st.session_state.transactions` as built by
`add_transaction` (the `timestamp` and derived `value` fields are not
modelled: no claim depends on them). -/
structure Txn where
  ticker : String
  action : Action
  quantity : ℤ
  price : ℚ
deriving DecidableEq, Repr

/-- `add_transaction`: append a transaction dict to the session ledger. -/
def add_transaction (txns : List Txn) (ticker : String) (action : Action)
    (quantity : ℤ) (price : ℚ) : List Txn :=
  txns ++ [⟨ticker, action, quantity, price⟩]

/-- A Python dict `str -> int` with insertion-ordered keys, as used by
`_aggregate_share_counts`.  `val` is only meaningful on `keys`. -/
structure ShareDict where
  keys : List String
  val : String → ℤ

/-- One iteration of the loop body of `_aggregate_share_counts`:
`shares = holdings.setdefault(ticker, 0)` followed by the `Buy`/`Sell`
update of `holdings[ticker]`. -/
def dictStep (d : ShareDict) (txn : Txn) : ShareDict :=
  let shares := if txn.ticker ∈ d.keys then d.val txn.ticker else 0
  let keys := if txn.ticker ∈ d.keys then d.keys else d.keys ++ [txn.ticker]
  let newShares :=
    match txn.action with
    | Action.Buy => shares + txn.quantity
    | Action.Sell => shares - txn.quantity
  ⟨keys, fun s => if s = txn.ticker then newShares else d.val s⟩

/-- `_aggregate_share_counts`: fold the ledger into net share counts and
keep only the tickers with a strictly positive count
(`{ticker: qty for ticker, qty in holdings.items() if qty > 0}`). -/
def aggregate_share_counts (txns : List Txn) : ShareDict :=
  let d := txns.foldl dictStep ⟨[], fun _ => 0⟩
  ⟨d.keys.filter (fun t => decide (0 < d.val t)), d.val⟩

/-- Dict lookup: `some` of the stored count when the ticker is a key. -/
def lookupShares (d : ShareDict) (t : String) : Option ℤ :=
  if t ∈ d.keys then some (d.val t) else none

/-- The signed quantity of one transaction: `+quantity` for Buy,
`-quantity` for Sell. -/
def signedQuantity (txn : Txn) : ℤ :=
  match txn.action with
  | Action.Buy => txn.quantity
  | Action.Sell => -txn.quantity

/-- The signed sum of a symbol's transaction quantities over a ledger. -/
def signed_net (txns : List Txn) (t : String) : ℤ :=
  ((txns.filter (fun x => decide (x.ticker = t))).map signedQuantity).sum

/-- Off-key entries of the dict hold `0` (true for every dict the fold of
`_aggregate_share_counts` builds from the empty dict). -/
def DictInv (d : ShareDict) : Prop := ∀ t, t ∉ d.keys → d.val t = 0

lemma dictStep_inv {d : ShareDict} (hd : DictInv d) (x : Txn) :
    DictInv (dictStep d x) := by
  intro t ht
  unfold dictStep at ht ⊢
  simp only at ht ⊢
  by_cases hmem : x.ticker ∈ d.keys
  · simp only [if_pos hmem] at ht
    have htx : t ≠ x.ticker := by
      intro h; exact ht (h ▸ hmem)
    simp only [if_neg htx]
    exact hd t ht
  · simp only [if_neg hmem, List.mem_append, List.mem_singleton] at ht
    push_neg at ht
    simp only [if_neg ht.2]
    exact hd t ht.1

lemma dictStep_val {d : ShareDict} (hd : DictInv d) (x : Txn) (t : String) :
    (dictStep d x).val t = d.val t + (if x.ticker = t then signedQuantity x else 0) := by
  have hshares : (if x.ticker ∈ d.keys then d.val x.ticker else 0) = d.val x.ticker := by
    by_cases hmem : x.ticker ∈ d.keys
    · simp [hmem]
    · simp [hmem, hd x.ticker hmem]
  unfold dictStep
  simp only [hshares]
  by_cases h : t = x.ticker
  · subst h
    simp only [if_pos rfl]
    cases hact : x.action <;> simp [signedQuantity, hact, sub_eq_add_neg]
  · have h' : ¬ x.ticker = t := fun hh => h hh.symm
    simp [h, h']

lemma dictStep_mem {d : ShareDict} (x : Txn) (t : String) :
    t ∈ (dictStep d x).keys ↔ t ∈ d.keys ∨ x.ticker = t := by
  unfold dictStep
  by_cases hmem : x.ticker ∈ d.keys
  · simp only [if_pos hmem]
    constructor
    · exact Or.inl
    · rintro (h | h)
      · exact h
      · exact h ▸ hmem
  · simp only [if_neg hmem, List.mem_append, List.mem_singleton]
    constructor
    · rintro (h | h)
      · exact Or.inl h
      · exact Or.inr h.symm
    · rintro (h | h)
      · exact Or.inl h
      · exact Or.inr h.symm

lemma signed_net_cons (x : Txn) (txns : List Txn) (t : String) :
    signed_net (x :: txns) t =
      (if x.ticker = t then signedQuantity x else 0) + signed_net txns t := by
  unfold signed_net
  by_cases h : x.ticker = t
  · simp [List.filter_cons, h]
  · simp [List.filter_cons, h]

lemma foldl_dictStep_val (txns : List Txn) :
    ∀ (d : ShareDict), DictInv d → ∀ t,
      (txns.foldl dictStep d).val t = d.val t + signed_net txns t := by
  induction txns with
  | nil => intro d _ t; simp [signed_net]
  | cons x rest ih =>
    intro d hd t
    have h1 := ih (dictStep d x) (dictStep_inv hd x) t
    simp only [List.foldl_cons] at h1 ⊢
    rw [h1, dictStep_val hd, signed_net_cons]
    ring

lemma foldl_dictStep_mem (txns : List Txn) :
    ∀ (d : ShareDict) (t : String),
      (t ∈ (txns.foldl dictStep d).keys ↔ t ∈ d.keys ∨ ∃ x ∈ txns, x.ticker = t) := by
  induction txns with
  | nil => intro d t; simp
  | cons x rest ih =>
    intro d t
    simp only [List.foldl_cons]
    rw [ih]
    rw [dictStep_mem]
    constructor
    · rintro ((h | h) | h)
      · exact Or.inl h
      · exact Or.inr ⟨x, by simp, h⟩
      · obtain ⟨y, hy, hyt⟩ := h
        exact Or.inr ⟨y, by simp [hy], hyt⟩
    · rintro (h | ⟨y, hy, hyt⟩)
      · exact Or.inl (Or.inl h)
      · rcases List.mem_cons.mp hy with h | h
        · exact Or.inl (Or.inr (h ▸ hyt))
        · exact Or.inr ⟨y, h, hyt⟩

lemma signed_net_eq_zero (txns : List Txn) (t : String)
    (h : ∀ x ∈ txns, x.ticker ≠ t) : signed_net txns t = 0 := by
  unfold signed_net
  have : txns.filter (fun x => decide (x.ticker = t)) = [] := by
    apply List.filter_eq_nil_iff.mpr
    intro x hx
    simp [h x hx]
  simp [this]

/-- The full characterization of the holdings resolver: a ticker is mapped
to its signed net quantity exactly when that quantity is strictly
positive, and is absent otherwise. -/
lemma lookup_aggregate (txns : List Txn) (t : String) :
    lookupShares (aggregate_share_counts txns) t =
      if 0 < signed_net txns t then some (signed_net txns t) else none := by
  have hinv : DictInv ⟨[], fun _ => 0⟩ := fun _ _ => rfl
  have hval := foldl_dictStep_val txns ⟨[], fun _ => 0⟩ hinv t
  simp only [zero_add] at hval
  unfold lookupShares aggregate_share_counts
  simp only [List.mem_filter, hval]
  by_cases hpos : 0 < signed_net txns t
  · have hne : signed_net txns t ≠ 0 := ne_of_gt hpos
    have hex : ∃ x ∈ txns, x.ticker = t := by
      by_contra hc
      push_neg at hc
      exact hne (signed_net_eq_zero txns t hc)
    have hmem : t ∈ (txns.foldl dictStep ⟨[], fun _ => 0⟩).keys := by
      rw [foldl_dictStep_mem]
      exact Or.inr hex
    simp [hmem, hval, hpos]
  · simp only [if_neg hpos]
    by_cases hmem : t ∈ (txns.foldl dictStep ⟨[], fun _ => 0⟩).keys
    · simp [hmem, hval, hpos]
    · simp [hmem]

/-- Claim C8: the resolved net quantity of each symbol equals the signed
sum of that symbol's transaction quantities (+quantity for Buy, -quantity
for Sell), a symbol surviving exactly when that sum is positive, and the
resolver's lookup result is invariant under every permutation of the
transaction sequence. -/
theorem aggregate_share_counts_signed_sum_and_perm_invariant
    (txns txns' : List Txn) (t : String) :
    (lookupShares (aggregate_share_counts txns) t =
      if 0 < signed_net txns t then some (signed_net txns t) else none) ∧
    (txns.Perm txns' →
      lookupShares (aggregate_share_counts txns) t =
        lookupShares (aggregate_share_counts txns') t) := by
  refine ⟨lookup_aggregate txns t, fun hperm => ?_⟩
  have hnet : signed_net txns t = signed_net txns' t := by
    unfold signed_net
    exact ((hperm.filter _).map signedQuantity).sum_eq
  rw [lookup_aggregate, lookup_aggregate, hnet]

/-- Claim C9: the resolved holdings mapping never contains a symbol with
net quantity at most 0: a looked-up symbol always carries a positive
count, and a symbol whose signed quantity sum is at most zero is absent. -/
theorem aggregate_share_counts_no_nonpositive_holding
    (txns : List Txn) (t : String) :
    (∀ q : ℤ, lookupShares (aggregate_share_counts txns) t = some q → 0 < q) ∧
    (signed_net txns t ≤ 0 → lookupShares (aggregate_share_counts txns) t = none) := by
  constructor
  · intro q hq
    rw [lookup_aggregate] at hq
    by_cases hpos : 0 < signed_net txns t
    · rw [if_pos hpos] at hq
      exact (Option.some_inj.mp hq) ▸ hpos
    · rw [if_neg hpos] at hq
      exact absurd hq (by simp)
  · intro hle
    rw [lookup_aggregate, if_neg (not_lt.mpr hle)]

/-- The outcome of reading `yf.Ticker(ticker).info`: `err` models a raised
exception, `info cp` a returned info mapping whose `"currentPrice"` entry
is `cp` (`none` when the key is absent, so that `info.get("currentPrice",
0.0)` yields the default `0.0`). -/
inductive FetchOutcome where
  | err : FetchOutcome
  | info : Option ℚ → FetchOutcome
deriving DecidableEq, Repr

/-- One row of the holdings snapshot built by `_fetch_market_snapshot`. -/
structure Snapshot where
  ticker : String
  quantity : ℤ
  currentPrice : ℚ
  marketValue : ℚ
deriving DecidableEq, Repr

/-- `_fetch_market_snapshot`: `None` when the info access raises, else a
row with `current_price = info.get("currentPrice", 0.0)` and
`market_value = quantity * current_price`. -/
def fetch_market_snapshot (provider : String → FetchOutcome) (ticker : String)
    (quantity : ℤ) : Option Snapshot :=
  match provider ticker with
  | FetchOutcome.err => none
  | FetchOutcome.info cp =>
    let current_price := cp.getD 0
    some ⟨ticker, quantity, current_price, (quantity : ℚ) * current_price⟩

/-- `get_current_holdings`: resolve the ledger into per-ticker counts and
keep the snapshot rows whose fetch returned a value
(`[snap for snap in snapshots if snap]`). -/
def get_current_holdings (provider : String → FetchOutcome) (txns : List Txn) :
    List Snapshot :=
  let m := aggregate_share_counts txns
  m.keys.filterMap (fun t => fetch_market_snapshot provider t (m.val t))

/-- `_current_portfolio_value`: `0.0` for an empty holdings frame, else the
sum of the `Market Value` column. -/
def current_portfolio_value (provider : String → FetchOutcome)
    (txns : List Txn) : ℚ :=
  let rows := get_current_holdings provider txns
  if rows = [] then 0 else (rows.map Snapshot.marketValue).sum

/-- The module constant `PORTFOLIO_VALUE_CAP = 100_000`. -/
def PORTFOLIO_VALUE_CAP : ℚ := 100000

/-- `_handle_buy_order`: reject on a raised fetch, on a fetched price at
most 0, and on a projected portfolio value above the cap; otherwise record
the buy through `add_transaction`. -/
def handle_buy_order (provider : String → FetchOutcome) (txns : List Txn)
    (ticker : String) (quantity : ℤ) : List Txn :=
  match provider ticker with
  | FetchOutcome.err => txns
  | FetchOutcome.info cp =>
    let current_price := cp.getD 0
    if current_price ≤ 0 then txns
    else if PORTFOLIO_VALUE_CAP <
        current_portfolio_value provider txns + current_price * (quantity : ℚ) then
      txns
    else add_transaction txns ticker Action.Buy quantity current_price

lemma fetch_market_snapshot_eq_some
    (provider : String → FetchOutcome) (k : String) (q : ℤ) (row : Snapshot) :
    fetch_market_snapshot provider k q = some row ↔
      ∃ cp : Option ℚ, provider k = FetchOutcome.info cp ∧
        row = ⟨k, q, cp.getD 0, (q : ℚ) * cp.getD 0⟩ := by
  unfold fetch_market_snapshot
  cases hk : provider k with
  | err => simp
  | info cp =>
    simp only [Option.some_inj]
    constructor
    · intro h; exact ⟨cp, rfl, h.symm⟩
    · rintro ⟨cp', hcp', hrow⟩
      rw [FetchOutcome.info.injEq] at hcp'
      rw [hrow, hcp']

/-- Claim C2 (amended): a symbol whose info fetch raises is excluded from
the holdings snapshot; a resolved symbol whose fetch returns an info
mapping is included with `current_price = info.get("currentPrice", 0.0)`
(so `0` when the provider reports no current price); and the portfolio's
total value is the sum of the included rows' market values. -/
theorem get_current_holdings_per_symbol_failure
    (provider : String → FetchOutcome) (txns : List Txn) (t : String) :
    (provider t = FetchOutcome.err →
      ∀ row ∈ get_current_holdings provider txns, row.ticker ≠ t) ∧
    (∀ cp : Option ℚ, provider t = FetchOutcome.info cp →
      t ∈ (aggregate_share_counts txns).keys →
      (⟨t, (aggregate_share_counts txns).val t, cp.getD 0,
        ((aggregate_share_counts txns).val t : ℚ) * cp.getD 0⟩ : Snapshot)
        ∈ get_current_holdings provider txns) ∧
    (current_portfolio_value provider txns =
      ((get_current_holdings provider txns).map Snapshot.marketValue).sum) := by
  refine ⟨?_, ?_, ?_⟩
  · intro herr row hrow hticker
    unfold get_current_holdings at hrow
    obtain ⟨k, _, hk⟩ := List.mem_filterMap.mp hrow
    obtain ⟨cp, hcp, hrow_eq⟩ := (fetch_market_snapshot_eq_some _ _ _ _).mp hk
    have hkt : k = t := by rw [hrow_eq] at hticker; exact hticker
    rw [hkt, herr] at hcp
    exact FetchOutcome.noConfusion hcp
  · intro cp hcp hmem
    unfold get_current_holdings
    apply List.mem_filterMap.mpr
    refine ⟨t, hmem, ?_⟩
    apply (fetch_market_snapshot_eq_some _ _ _ _).mpr
    exact ⟨cp, hcp, rfl⟩
  · unfold current_portfolio_value
    by_cases hrows : get_current_holdings provider txns = []
    · simp [hrows]
    · simp [hrows]

/-- Claim C2, counterexample to the claim as stated: for the ledger
`[Buy "A" 5 @ 10]` and a provider whose info mapping has no
`currentPrice` entry, the symbol `"A"` is NOT excluded: it appears in the
snapshot with the default price `0` and market value `0`. -/
theorem get_current_holdings_includes_zero_priced_symbol :
    get_current_holdings (fun _ => FetchOutcome.info none)
        [⟨"A", Action.Buy, 5, 10⟩] = [⟨"A", 5, 0, 0⟩] ∧
    (fun _ : String => FetchOutcome.info none) "A" = FetchOutcome.info none := by
  refine ⟨?_, rfl⟩
  simp [get_current_holdings, aggregate_share_counts, dictStep, fetch_market_snapshot]

/-- Claim C10: a buy order whose fetched current price is at most 0, or
whose projected portfolio value (current total market value plus price
times quantity) exceeds the 100000 cap, leaves the transaction ledger
unchanged: `add_transaction` is never reached. -/
theorem handle_buy_order_rejects_cap_and_nonpositive_price
    (provider : String → FetchOutcome) (txns : List Txn) (ticker : String)
    (quantity : ℤ) (cp : Option ℚ)
    (hfetch : provider ticker = FetchOutcome.info cp)
    (hreject : cp.getD 0 ≤ 0 ∨
      PORTFOLIO_VALUE_CAP <
        current_portfolio_value provider txns + cp.getD 0 * (quantity : ℚ)) :
    handle_buy_order provider txns ticker quantity = txns := by
  unfold handle_buy_order
  rw [hfetch]
  rcases hreject with h | h
  · simp [h]
  · by_cases hp : cp.getD 0 ≤ 0
    · simp [hp]
    · simp [hp, h]

/-- Claim C10, witness: a concrete rejected order (fetched price -5) on an
empty ledger leaves the ledger empty. -/
theorem handle_buy_order_rejects_witness :
    (fun _ : String => FetchOutcome.info (some (-5))) "X" =
        FetchOutcome.info (some (-5)) ∧
    handle_buy_order (fun _ => FetchOutcome.info (some (-5))) [] "X" 1 = [] := by
  exact ⟨rfl, handle_buy_order_rejects_cap_and_nonpositive_price _ _ _ _ _ rfl
    (Or.inl (by norm_num))⟩

/-- A date-indexed price or value series (one pandas `Series` / one column
of the normalised price-history frame): `none` at a date means no
observation there. -/
def SeriesQ : Type := ℕ → Option ℚ

/-- `price_history[ticker] * quantity`: pointwise scaling, missing
observations stay missing (NaN propagates through `*`). -/
def scaleSeries (quantity : ℤ) (s : SeriesQ) : SeriesQ :=
  fun d => (s d).map (fun v => v * (quantity : ℚ))

/-- One cell of `Series.add(other, fill_value=0)`: missing on both sides
stays missing, otherwise a missing side counts as 0. -/
def obsAdd (a b : Option ℚ) : Option ℚ :=
  match a, b with
  | none, none => none
  | a, b => some (a.getD 0 + b.getD 0)

/-- `portfolio_series.add(ticker_values, fill_value=0)`: pointwise
`obsAdd` over the union of the two indexes. -/
def seriesAdd (p t : SeriesQ) : SeriesQ := fun d => obsAdd (p d) (t d)

/-- The loop of `_build_portfolio_values`: `acc = none` is the initial
`pd.Series(dtype=float)` (for which `portfolio_series.empty` holds), a
ticker absent from the price-history columns is skipped (`continue`), the
first present holding replaces the empty series, and later ones are added
with `fill_value=0`.  The final `sort_index()` has no counterpart in the
function model. -/
def build_portfolio_values_aux (hist : String → Option SeriesQ)
    (acc : Option SeriesQ) : List (String × ℤ) → Option SeriesQ
  | [] => acc
  | (ticker, quantity) :: rest =>
    match hist ticker with
    | none => build_portfolio_values_aux hist acc rest
    | some s =>
      match acc with
      | none =>
        build_portfolio_values_aux hist (some (scaleSeries quantity s)) rest
      | some p =>
        build_portfolio_values_aux hist
          (some (seriesAdd p (scaleSeries quantity s))) rest

/-- `_build_portfolio_values`, holdings given as (Ticker, Quantity) rows of
the holdings frame and the price history as an optional column per ticker. -/
def build_portfolio_values (holdings : List (String × ℤ))
    (hist : String → Option SeriesQ) : Option SeriesQ :=
  build_portfolio_values_aux hist none holdings

/-- Observation of an optional series at a date (`none` for the empty
series of `_empty_returns_payload`). -/
def optVal (o : Option SeriesQ) (d : ℕ) : Option ℚ :=
  match o with
  | none => none
  | some f => f d

/-- A holding's (value) observation at a date: present only when its
ticker has a price-history column with an observation there. -/
def holdingObs (hist : String → Option SeriesQ) (d : ℕ)
    (p : String × ℤ) : Option ℚ :=
  match hist p.1 with
  | none => none
  | some s => (s d).map (fun v => v * (p.2 : ℚ))

/-- A holding's contribution to the summed portfolio value at a date:
its value observation, a missing one counting as 0. -/
def holding_contrib (hist : String → Option SeriesQ) (d : ℕ)
    (p : String × ℤ) : ℚ :=
  (holdingObs hist d p).getD 0

lemma obsAdd_none_right (a : Option ℚ) : obsAdd a none = a := by
  cases a <;> simp [obsAdd]

lemma obsAdd_none_left (b : Option ℚ) : obsAdd none b = b := by
  cases b <;> simp [obsAdd]

lemma obsAdd_isSome (a b : Option ℚ) :
    (obsAdd a b).isSome ↔ a.isSome ∨ b.isSome := by
  cases a <;> cases b <;> simp [obsAdd]

lemma obsAdd_getD (a b : Option ℚ) :
    (obsAdd a b).getD 0 = a.getD 0 + b.getD 0 := by
  cases a <;> cases b <;> simp [obsAdd]

lemma build_aux_eq_none (hist : String → Option SeriesQ)
    (l : List (String × ℤ)) :
    ∀ acc : Option SeriesQ,
      (build_portfolio_values_aux hist acc l = none ↔
        acc = none ∧ ∀ p ∈ l, hist p.1 = none) := by
  induction l with
  | nil => intro acc; simp [build_portfolio_values_aux]
  | cons hd rest ih =>
    intro acc
    obtain ⟨t, q⟩ := hd
    by_cases hh : hist t = none
    · simp only [build_portfolio_values_aux, hh]
      rw [ih acc]
      constructor
      · rintro ⟨ha, hrest⟩
        refine ⟨ha, ?_⟩
        intro p hp
        rcases List.mem_cons.mp hp with h | h
        · rw [h]; exact hh
        · exact hrest p h
      · rintro ⟨ha, hall⟩
        exact ⟨ha, fun p hp => hall p (List.mem_cons_of_mem _ hp)⟩
    · obtain ⟨s, hs⟩ := Option.ne_none_iff_exists'.mp hh
      cases acc with
      | none =>
        simp only [build_portfolio_values_aux, hs]
        rw [ih (some (scaleSeries q s))]
        simp [hs]
      | some p =>
        simp only [build_portfolio_values_aux, hs]
        rw [ih (some (seriesAdd p (scaleSeries q s)))]
        simp [hs]

lemma build_aux_pointwise (hist : String → Option SeriesQ)
    (l : List (String × ℤ)) (d : ℕ) :
    ∀ acc : Option SeriesQ,
      optVal (build_portfolio_values_aux hist acc l) d =
        (l.map (holdingObs hist d)).foldl obsAdd (optVal acc d) := by
  induction l with
  | nil => intro acc; simp [build_portfolio_values_aux]
  | cons hd rest ih =>
    intro acc
    obtain ⟨t, q⟩ := hd
    cases hh : hist t with
    | none =>
      simp only [build_portfolio_values_aux, hh, List.map_cons, List.foldl_cons]
      rw [ih acc]
      have : holdingObs hist d (t, q) = none := by simp [holdingObs, hh]
      rw [this, obsAdd_none_right]
    | some s =>
      have hobs : holdingObs hist d (t, q) = (s d).map (fun v => v * (q : ℚ)) := by
        simp [holdingObs, hh]
      cases acc with
      | none =>
        simp only [build_portfolio_values_aux, hh, List.map_cons, List.foldl_cons]
        rw [ih (some (scaleSeries q s))]
        rw [hobs]
        have : optVal (some (scaleSeries q s)) d =
            obsAdd (optVal (none : Option SeriesQ) d) ((s d).map (fun v => v * (q : ℚ))) := by
          simp [optVal, scaleSeries, obsAdd_none_left]
        rw [this]
      | some p =>
        simp only [build_portfolio_values_aux, hh, List.map_cons, List.foldl_cons]
        rw [ih (some (seriesAdd p (scaleSeries q s)))]
        rw [hobs]
        rfl

lemma foldl_obsAdd_isSome (L : List (Option ℚ)) :
    ∀ init : Option ℚ,
      (L.foldl obsAdd init).isSome ↔ init.isSome ∨ ∃ x ∈ L, x.isSome := by
  induction L with
  | nil => intro init; simp
  | cons x rest ih =>
    intro init
    simp only [List.foldl_cons]
    rw [ih (obsAdd init x), obsAdd_isSome]
    constructor
    · rintro ((h | h) | h)
      · exact Or.inl h
      · exact Or.inr ⟨x, by simp, h⟩
      · obtain ⟨y, hy, hys⟩ := h
        exact Or.inr ⟨y, by simp [hy], hys⟩
    · rintro (h | ⟨y, hy, hys⟩)
      · exact Or.inl (Or.inl h)
      · rcases List.mem_cons.mp hy with h | h
        · exact Or.inl (Or.inr (h ▸ hys))
        · exact Or.inr ⟨y, h, hys⟩

lemma foldl_obsAdd_getD (L : List (Option ℚ)) :
    ∀ init : Option ℚ,
      (L.foldl obsAdd init).getD 0 = init.getD 0 + (L.map (fun x => x.getD 0)).sum := by
  induction L with
  | nil => intro init; simp
  | cons x rest ih =>
    intro init
    simp only [List.foldl_cons, List.map_cons, List.sum_cons]
    rw [ih (obsAdd init x), obsAdd_getD]
    ring

/-- Claim C1 (amended): the reconstructed portfolio value series is the
empty series exactly when no holding has a price-history column; its index
is the union of per-holding observation dates (a date is present once some
holding has a price there); and the value at a date is the sum of the
holdings' contributions where a holding with no observation at that date
contributes ZERO (`fill_value=0`), not a forward-filled last known value. -/
theorem build_portfolio_values_union_index_zero_fill
    (holdings : List (String × ℤ)) (hist : String → Option SeriesQ) :
    (build_portfolio_values holdings hist = none ↔
      ∀ p ∈ holdings, hist p.1 = none) ∧
    ∀ d : ℕ,
      ((optVal (build_portfolio_values holdings hist) d).isSome ↔
        ∃ p ∈ holdings, (holdingObs hist d p).isSome) ∧
      (optVal (build_portfolio_values holdings hist) d).getD 0 =
        (holdings.map (holding_contrib hist d)).sum := by
  refine ⟨?_, fun d => ⟨?_, ?_⟩⟩
  · rw [build_portfolio_values, build_aux_eq_none]
    simp
  · rw [build_portfolio_values, build_aux_pointwise, foldl_obsAdd_isSome]
    simp only [optVal, Option.isSome_none, Bool.false_eq_true, false_or,
      List.mem_map, Prod.exists]
    constructor
    · rintro ⟨x, ⟨a, b, hab, rfl⟩, hs⟩
      exact ⟨a, b, hab, hs⟩
    · rintro ⟨a, b, hab, hs⟩
      exact ⟨_, ⟨a, b, hab, rfl⟩, hs⟩
  · rw [build_portfolio_values, build_aux_pointwise, foldl_obsAdd_getD]
    simp only [optVal, Option.getD_none, zero_add, List.map_map]
    rfl

/-- Price history used in concrete reconstruction examples: ticker A has
closes 10 and 12 on dates 0 and 1, ticker B only a close of 20 on date 0. -/
def seriesA : SeriesQ := fun d => if d = 0 then some 10 else if d = 1 then some 12 else none

/-- Ticker B's price column: a single close of 20 on date 0, nothing on
date 1. -/
def seriesB : SeriesQ := fun d => if d = 0 then some 20 else none

/-- A two-column price-history frame holding `seriesA` and `seriesB`. -/
def twoColumnHist : String → Option SeriesQ :=
  fun t => if t = "A" then some seriesA else if t = "B" then some seriesB else none

/-- Claim C1, counterexample to the claim as stated: holding one share
each of A and B, on date 1 (where B has no observation but A does) the
reconstructed value is `12` — B's gap contributed zero — and not
`12 + 20`, which forward-filling B's most recent close of 20 would give. -/
theorem build_portfolio_values_not_forward_fill :
    optVal (build_portfolio_values [("A", 1), ("B", 1)] twoColumnHist) 1 = some 12 ∧
    optVal (build_portfolio_values [("A", 1), ("B", 1)] twoColumnHist) 1 ≠
      some (12 + 20) := by
  have h : optVal (build_portfolio_values [("A", 1), ("B", 1)] twoColumnHist) 1 =
      some 12 := by
    simp [build_portfolio_values, build_portfolio_values_aux, twoColumnHist,
      seriesA, seriesB, optVal, seriesAdd, scaleSeries, obsAdd]
  refine ⟨h, ?_⟩
  rw [h]
  intro hc
  rw [Option.some_inj] at hc
  norm_num at hc

/-- Claim C7: with two holdings, when one ticker has no price-history
column (its fetch returned empty) and the other resolves to series `s`,
the reconstruction skips the failed symbol and returns exactly the
successful holding's quantity-times-price series — non-empty, and
independent of the order of the two holdings. -/
theorem build_portfolio_values_degrades_per_symbol
    (t₁ t₂ : String) (q₁ q₂ : ℤ) (s : SeriesQ)
    (hist : String → Option SeriesQ)
    (h₁ : hist t₁ = none) (h₂ : hist t₂ = some s) :
    build_portfolio_values [(t₁, q₁), (t₂, q₂)] hist = some (scaleSeries q₂ s) ∧
    build_portfolio_values [(t₂, q₂), (t₁, q₁)] hist = some (scaleSeries q₂ s) := by
  constructor <;>
    simp [build_portfolio_values, build_portfolio_values_aux, h₁, h₂]

/-- Claim C7, witness: a concrete frame where ticker A has no column and
ticker B resolves; reconstructing [A times 2, B times 3] yields B's series
scaled by 3 in either order. -/
theorem build_portfolio_values_degrades_witness :
    (fun t => if t = "B" then some seriesB else none) "A" = none ∧
    build_portfolio_values [("A", 2), ("B", 3)]
        (fun t => if t = "B" then some seriesB else none) =
      some (scaleSeries 3 seriesB) ∧
    build_portfolio_values [("B", 3), ("A", 2)]
        (fun t => if t = "B" then some seriesB else none) =
      some (scaleSeries 3 seriesB) := by
  have h := build_portfolio_values_degrades_per_symbol "A" "B" 2 3 seriesB
    (fun t => if t = "B" then some seriesB else none) (by simp) (by simp)
  exact ⟨by simp, h.1, h.2⟩

/-- `Series.pct_change()` on a date-ordered value series: the first
observation has no previous value (`NaN`, here `none`), each later one is
`V_t / V_(t-1) - 1`. -/
def pct_change (values : List ℚ) : List (Option ℚ) :=
  match values with
  | [] => []
  | _ :: tail => none :: (values.zip tail).map (fun p => some (p.2 / p.1 - 1))

/-- `.fillna(0)`: every missing entry becomes `0`. -/
def fillna0 (l : List (Option ℚ)) : List (Option ℚ) :=
  l.map (fun o => some (o.getD 0))

/-- Line `returns_series = portfolio_values.pct_change().fillna(0)` of
`calculate_returns`. -/
def calculate_returns_series (values : List ℚ) : List (Option ℚ) :=
  fillna0 (pct_change values)

/-- Pandas sample variance (`ddof=1`, the default of `Series.std`), so
that `ret.std() = sqrt (sampleVar ret)`.  The value at length at most 1 is
irrelevant: the caller guards with `len(ret) > 1`. -/
def sampleVar (l : List ℚ) : ℚ :=
  if l.length ≤ 1 then 0
  else
    let m := l.sum / l.length
    (l.map (fun x => (x - m) ^ 2)).sum / ((l.length : ℚ) - 1)

/-- Helper of `cumprod1p` carrying the running product. -/
def cumprod1pAux (acc : ℚ) : List ℚ → List ℚ
  | [] => []
  | r :: rs => (acc * (1 + r)) :: cumprod1pAux (acc * (1 + r)) rs

/-- `(1 + ret).cumprod()`. -/
def cumprod1p (rs : List ℚ) : List ℚ := cumprod1pAux 1 rs

/-- Helper of `runningMax` carrying the running maximum. -/
def runningMaxAux (m : ℚ) : List ℚ → List ℚ
  | [] => []
  | x :: xs => max m x :: runningMaxAux (max m x) xs

/-- `curve.cummax()`. -/
def runningMax (l : List ℚ) : List ℚ :=
  match l with
  | [] => []
  | x :: xs => x :: runningMaxAux x xs

/-- `.min()` of a series (the empty case is unreachable behind the
guards of `calculate_portfolio_metrics`). -/
def minList (l : List ℚ) : ℚ :=
  match l with
  | [] => 0
  | x :: xs => xs.foldl min x

/-- `(curve / peak - 1)` pointwise, where `curve = (1+ret).cumprod()` and
`peak = curve.cummax()`. -/
def drawdowns (rs : List ℚ) : List ℚ :=
  ((cumprod1p rs).zip (runningMax (cumprod1p rs))).map (fun p => p.1 / p.2 - 1)

/-- `dd = (curve / peak - 1).min()` of `calculate_portfolio_metrics`. -/
def maxDrawdown (rs : List ℚ) : ℚ := minList (drawdowns rs)

/-- The module constant `RISK_FREE_RATE = 0.02`. -/
noncomputable def RISK_FREE_RATE : ℝ := 0.02

/-- The metrics dict returned by `calculate_portfolio_metrics`.  `MaxDD`
only involves rational arithmetic and is kept in `ℚ`; the other three
need real powers and square roots. -/
structure PortfolioMetrics where
  CAGR : ℝ
  Vol : ℝ
  Sharpe : ℝ
  MaxDD : ℚ

/-- `cagr = (1 + ret).prod() ** (252 / days) - 1 if days > 0 else 0`,
with `days = len(ret)` and `**` read as the real power. -/
noncomputable def cagr_of (ret : List ℚ) : ℝ :=
  if 0 < ret.length then
    (((ret.map (fun r => 1 + r)).prod : ℚ) : ℝ) ^ ((252 : ℝ) / (ret.length : ℝ)) - 1
  else 0

/-- `vol = ret.std() * np.sqrt(252) if len(ret) > 1 else 0`, with
`std = sqrt` of the `ddof=1` sample variance. -/
noncomputable def vol_of (ret : List ℚ) : ℝ :=
  if 1 < ret.length then Real.sqrt (sampleVar ret) * Real.sqrt 252 else 0

open Classical in
/-- `sharpe = (cagr - RISK_FREE_RATE) / vol if vol != 0 else 0`. -/
noncomputable def sharpe_of (ret : List ℚ) : ℝ :=
  if vol_of ret ≠ 0 then (cagr_of ret - RISK_FREE_RATE) / vol_of ret else 0

/-- `calculate_portfolio_metrics`: the two sentinel guards
(`returns.empty or len(returns) < 2`, here subsumed by `length < 2`, and
`ret = returns.dropna()` empty), then the annualized metrics over `ret`. -/
noncomputable def calculate_portfolio_metrics (returns : List (Option ℚ)) :
    PortfolioMetrics :=
  if returns.length < 2 then ⟨0, 0, 0, 0⟩
  else
    let ret := returns.filterMap id
    if ret = [] then ⟨0, 0, 0, 0⟩
    else ⟨cagr_of ret, vol_of ret, sharpe_of ret, maxDrawdown ret⟩

/-- Lines 140-141 of `calculate_returns`: the returns series of a
portfolio value series fed into `calculate_portfolio_metrics`. -/
noncomputable def metrics_of_values (values : List ℚ) : PortfolioMetrics :=
  calculate_portfolio_metrics (calculate_returns_series values)

/-- Modelled from the spec for comparison with the code: simple period
returns `r_t = V_t / V_(t-1) - 1` for `t = 2..N`, the first observation
contributing no return. -/
def spec_simple_returns (values : List ℚ) : List ℚ :=
  match values with
  | [] => []
  | _ :: tail => (values.zip tail).map (fun p => p.2 / p.1 - 1)

/-- Modelled from the spec for comparison with the code: maximum drawdown
computed from the returns `r_2..r_N` only. -/
def spec_maxDrawdown (values : List ℚ) : ℚ :=
  maxDrawdown (spec_simple_returns values)

lemma length_pct_change (values : List ℚ) :
    (pct_change values).length = values.length := by
  cases values with
  | nil => rfl
  | cons v t =>
    simp only [pct_change, List.length_cons, List.length_map, List.length_zip]
    omega

lemma length_calculate_returns_series (values : List ℚ) :
    (calculate_returns_series values).length = values.length := by
  simp [calculate_returns_series, fillna0, length_pct_change]

lemma length_spec_simple_returns (values : List ℚ) :
    (spec_simple_returns values).length = values.length - 1 := by
  cases values with
  | nil => rfl
  | cons v t =>
    simp only [spec_simple_returns, List.length_map, List.length_zip, List.length_cons]
    omega

lemma calculate_returns_series_cons (v : ℚ) (t : List ℚ) :
    calculate_returns_series (v :: t) =
      some 0 :: (spec_simple_returns (v :: t)).map some := by
  simp [calculate_returns_series, pct_change, fillna0, spec_simple_returns,
    List.map_map, Function.comp]

lemma filterMap_id_map_some (l : List ℚ) :
    (l.map some).filterMap id = l := by
  rw [List.filterMap_map]
  exact List.filterMap_some l

lemma foldl_min_le_init (l : List ℚ) : ∀ a : ℚ, l.foldl min a ≤ a := by
  induction l with
  | nil => intro a; simp
  | cons x xs ih =>
    intro a
    calc xs.foldl min (min a x) ≤ min a x := ih _
    _ ≤ a := min_le_left _ _

lemma foldl_min_le_mem (l : List ℚ) : ∀ a : ℚ, ∀ x ∈ l, l.foldl min a ≤ x := by
  induction l with
  | nil => intro a x hx; cases hx
  | cons y ys ih =>
    intro a x hx
    rcases List.mem_cons.mp hx with h | h
    · subst h
      calc ys.foldl min (min a x) ≤ min a x := foldl_min_le_init ys _
      _ ≤ x := min_le_right _ _
    · exact ih _ x h

lemma minList_le (l : List ℚ) (x : ℚ) (hx : x ∈ l) : minList l ≤ x := by
  cases l with
  | nil => cases hx
  | cons y ys =>
    rcases List.mem_cons.mp hx with h | h
    · exact h ▸ foldl_min_le_init ys y
    · exact foldl_min_le_mem ys y x h

lemma foldl_min_mem (l : List ℚ) : ∀ a : ℚ, l.foldl min a = a ∨ l.foldl min a ∈ l := by
  induction l with
  | nil => intro a; exact Or.inl rfl
  | cons x xs ih =>
    intro a
    rcases ih (min a x) with h | h
    · rcases min_choice a x with hm | hm
      · exact Or.inl (by simp only [List.foldl_cons]; rw [h, hm])
      · refine Or.inr ?_
        simp only [List.foldl_cons]
        rw [h, hm]
        exact List.mem_cons_self x xs
    · exact Or.inr (List.mem_cons_of_mem x (by simpa using h))

lemma minList_mem (l : List ℚ) (h : l ≠ []) : minList l ∈ l := by
  cases l with
  | nil => exact absurd rfl h
  | cons y ys =>
    rcases foldl_min_mem ys y with hm | hm
    · rw [minList, hm]; exact List.mem_cons_self y ys
    · rw [minList]; exact List.mem_cons_of_mem y hm

lemma minList_nonpos (l : List ℚ) (h : ∀ x ∈ l, x ≤ 0) : minList l ≤ 0 := by
  cases l with
  | nil => simp [minList]
  | cons y ys =>
    have hm := minList_mem (y :: ys) (by simp)
    exact h _ hm

lemma foldl_min_all_zero (l : List ℚ) (h : ∀ x ∈ l, x = 0) :
    l.foldl min 0 = 0 := by
  induction l with
  | nil => rfl
  | cons x xs ih =>
    have hx : x = 0 := h x (List.mem_cons_self x xs)
    simp only [List.foldl_cons, hx, min_self]
    exact ih (fun y hy => h y (List.mem_cons_of_mem x hy))

lemma minList_all_zero (l : List ℚ) (h : ∀ x ∈ l, x = 0) : minList l = 0 := by
  cases l with
  | nil => rfl
  | cons y ys =>
    have hy : y = 0 := h y (List.mem_cons_self y ys)
    rw [minList, hy]
    exact foldl_min_all_zero ys (fun x hx => h x (List.mem_cons_of_mem y hx))

lemma minList_eq_zero_iff (l : List ℚ) (h : ∀ x ∈ l, x ≤ 0) :
    minList l = 0 ↔ ∀ x ∈ l, x = 0 := by
  constructor
  · intro h0 x hx
    exact le_antisymm (h x hx) (h0 ▸ minList_le l x hx)
  · exact minList_all_zero l

lemma cumprod1pAux_pos (l : List ℚ) :
    ∀ acc : ℚ, 0 < acc → (∀ r ∈ l, 0 < 1 + r) →
      ∀ c ∈ cumprod1pAux acc l, 0 < c := by
  induction l with
  | nil => intro acc _ _ c hc; cases hc
  | cons r rs ih =>
    intro acc hacc hl c hc
    have hr : 0 < 1 + r := hl r (List.mem_cons_self r rs)
    have hmul : 0 < acc * (1 + r) := mul_pos hacc hr
    rcases List.mem_cons.mp hc with h | h
    · exact h ▸ hmul
    · exact ih _ hmul (fun x hx => hl x (List.mem_cons_of_mem r hx)) c h

lemma cumprod1p_pos (rs : List ℚ) (h : ∀ r ∈ rs, 0 < 1 + r) :
    ∀ c ∈ cumprod1p rs, 0 < c :=
  cumprod1pAux_pos rs 1 one_pos h

lemma zip_runningMaxAux_le (c : List ℚ) :
    ∀ m : ℚ, ∀ p ∈ c.zip (runningMaxAux m c), p.1 ≤ p.2 := by
  induction c with
  | nil => intro m p hp; cases hp
  | cons x xs ih =>
    intro m p hp
    simp only [runningMaxAux, List.zip_cons_cons] at hp
    rcases List.mem_cons.mp hp with h | h
    · rw [h]; exact le_max_right m x
    · exact ih (max m x) p h

lemma zip_runningMax_le (c : List ℚ) :
    ∀ p ∈ c.zip (runningMax c), p.1 ≤ p.2 := by
  cases c with
  | nil => intro p hp; cases hp
  | cons x xs =>
    intro p hp
    simp only [runningMax, List.zip_cons_cons] at hp
    rcases List.mem_cons.mp hp with h | h
    · rw [h]
    · exact zip_runningMaxAux_le xs x p h

lemma drawdowns_nonpos (rs : List ℚ) (h : ∀ r ∈ rs, 0 < 1 + r) :
    ∀ d ∈ drawdowns rs, d ≤ 0 := by
  intro d hd
  unfold drawdowns at hd
  obtain ⟨p, hp, rfl⟩ := List.mem_map.mp hd
  have hp1 : 0 < p.1 := cumprod1p_pos rs h _ (List.of_mem_zip hp).1
  have hle : p.1 ≤ p.2 := zip_runningMax_le _ p hp
  have hp2 : 0 < p.2 := lt_of_lt_of_le hp1 hle
  have hdiv : p.1 / p.2 ≤ 1 := (div_le_one hp2).mpr hle
  linarith

lemma maxDrawdown_nonpos (rs : List ℚ) (h : ∀ r ∈ rs, 0 < 1 + r) :
    maxDrawdown rs ≤ 0 :=
  minList_nonpos _ (drawdowns_nonpos rs h)

lemma zip_same_eq (l : List ℚ) : ∀ p ∈ l.zip l, p.1 = p.2 := by
  induction l with
  | nil => intro p hp; cases hp
  | cons x xs ih =>
    intro p hp
    simp only [List.zip_cons_cons] at hp
    rcases List.mem_cons.mp hp with h | h
    · rw [h]
    · exact ih p h

lemma length_runningMaxAux (l : List ℚ) :
    ∀ m : ℚ, (runningMaxAux m l).length = l.length := by
  induction l with
  | nil => intro m; rfl
  | cons x xs ih => intro m; simp [runningMaxAux, ih]

lemma length_runningMax (l : List ℚ) : (runningMax l).length = l.length := by
  cases l with
  | nil => rfl
  | cons x xs => simp [runningMax, length_runningMaxAux]

lemma eq_of_zip_forall_eq (l₁ : List ℚ) :
    ∀ l₂ : List ℚ, l₁.length = l₂.length →
      (∀ p ∈ l₁.zip l₂, p.1 = p.2) → l₁ = l₂ := by
  induction l₁ with
  | nil =>
    intro l₂ hlen _
    cases l₂ with
    | nil => rfl
    | cons y ys => simp at hlen
  | cons x xs ih =>
    intro l₂ hlen h
    cases l₂ with
    | nil => simp at hlen
    | cons y ys =>
      have hxy : x = y := h (x, y) (by simp [List.zip_cons_cons])
      have hrest : xs = ys := by
        refine ih ys (by simpa using hlen) ?_
        intro p hp
        exact h p (by simp [List.zip_cons_cons, hp])
      rw [hxy, hrest]

lemma maxDrawdown_eq_zero_iff (rs : List ℚ) (h : ∀ r ∈ rs, 0 < 1 + r) :
    maxDrawdown rs = 0 ↔ runningMax (cumprod1p rs) = cumprod1p rs := by
  rw [maxDrawdown, minList_eq_zero_iff _ (drawdowns_nonpos rs h)]
  constructor
  · intro hall
    refine (eq_of_zip_forall_eq _ _ (by rw [length_runningMax]) ?_).symm
    intro p hp
    have hd : p.1 / p.2 - 1 = 0 :=
      hall _ (List.mem_map.mpr ⟨p, hp, rfl⟩)
    have hp1 : 0 < p.1 := cumprod1p_pos rs h _ (List.of_mem_zip hp).1
    have hle : p.1 ≤ p.2 := zip_runningMax_le _ p hp
    have hp2 : 0 < p.2 := lt_of_lt_of_le hp1 hle
    have : p.1 / p.2 = 1 := by linarith
    exact (div_eq_one_iff_eq (ne_of_gt hp2)).mp this
  · intro heq d hd
    unfold drawdowns at hd
    obtain ⟨p, hp, rfl⟩ := List.mem_map.mp hd
    rw [heq] at hp
    have hpe : p.1 = p.2 := zip_same_eq _ p hp
    have hp1 : 0 < p.1 := cumprod1p_pos rs h _ (List.of_mem_zip hp).1
    rw [← hpe, div_self (ne_of_gt hp1)]
    ring

lemma spec_simple_returns_pos (values : List ℚ) (hpos : ∀ v ∈ values, 0 < v) :
    ∀ r ∈ spec_simple_returns values, 0 < 1 + r := by
  intro r hr
  cases values with
  | nil => simp [spec_simple_returns] at hr
  | cons v t =>
    simp only [spec_simple_returns] at hr
    obtain ⟨p, hp, rfl⟩ := List.mem_map.mp hr
    have hmem := List.of_mem_zip hp
    have h1 : 0 < p.1 := hpos _ hmem.1
    have h2 : 0 < p.2 := hpos _ (List.mem_cons_of_mem v hmem.2)
    have heq : 1 + (p.2 / p.1 - 1) = p.2 / p.1 := by ring
    rw [heq]
    exact div_pos h2 h1

lemma sampleVar_all_zero (l : List ℚ) (h : ∀ x ∈ l, x = 0) : sampleVar l = 0 := by
  unfold sampleVar
  by_cases hl : l.length ≤ 1
  · simp [hl]
  · have hsum : l.sum = 0 := List.sum_eq_zero h
    have hmap : (l.map (fun x => (x - l.sum / (l.length : ℚ)) ^ 2)).sum = 0 := by
      apply List.sum_eq_zero
      intro y hy
      obtain ⟨x, hx, rfl⟩ := List.mem_map.mp hy
      rw [h x hx, hsum]
      norm_num
    simp only [if_neg hl, hmap, zero_div]

lemma filterMap_id_all_zero (returns : List (Option ℚ))
    (h : ∀ x ∈ returns, x = some 0) :
    ∀ y ∈ returns.filterMap id, y = 0 := by
  intro y hy
  obtain ⟨a, ha, hay⟩ := List.mem_filterMap.mp hy
  rw [h a ha] at hay
  exact (Option.some_inj.mp hay).symm

lemma cumprod1pAux_all_zero (l : List ℚ) :
    ∀ acc : ℚ, (∀ r ∈ l, r = 0) → cumprod1pAux acc l = l.map (fun _ => acc) := by
  induction l with
  | nil => intro acc _; rfl
  | cons r rs ih =>
    intro acc h
    have hr : r = 0 := h r (List.mem_cons_self r rs)
    simp only [cumprod1pAux, hr, add_zero, mul_one, List.map_cons]
    rw [ih acc (fun x hx => h x (List.mem_cons_of_mem r hx))]

lemma map_const_eq_replicate (l : List ℚ) (c : ℚ) :
    l.map (fun _ => c) = List.replicate l.length c := by
  induction l with
  | nil => rfl
  | cons x xs ih => simp [List.replicate_succ, ih]

lemma runningMaxAux_replicate (n : ℕ) (c : ℚ) :
    runningMaxAux c (List.replicate n c) = List.replicate n c := by
  induction n with
  | zero => rfl
  | succ k ih => simp [List.replicate_succ, runningMaxAux, max_self, ih]

lemma runningMax_replicate (n : ℕ) (c : ℚ) :
    runningMax (List.replicate n c) = List.replicate n c := by
  cases n with
  | zero => rfl
  | succ k => simp [List.replicate_succ, runningMax, runningMaxAux_replicate]

lemma maxDrawdown_all_zero (rs : List ℚ) (h : ∀ r ∈ rs, r = 0) :
    maxDrawdown rs = 0 := by
  have hcurve : cumprod1p rs = List.replicate rs.length 1 := by
    rw [cumprod1p, cumprod1pAux_all_zero rs 1 h, map_const_eq_replicate]
  apply minList_all_zero
  intro d hd
  unfold drawdowns at hd
  rw [hcurve, runningMax_replicate] at hd
  obtain ⟨p, hp, rfl⟩ := List.mem_map.mp hd
  have hpe : p.1 = p.2 := zip_same_eq _ p hp
  have hp1 : p.1 = 1 := List.eq_of_mem_replicate (List.of_mem_zip hp).1
  rw [← hpe, hp1]
  norm_num

lemma vol_of_all_zero (ret : List ℚ) (h : ∀ x ∈ ret, x = 0) : vol_of ret = 0 := by
  unfold vol_of
  by_cases hl : 1 < ret.length
  · rw [if_pos hl, sampleVar_all_zero ret h]
    simp
  · rw [if_neg hl]

lemma calculate_portfolio_metrics_short (returns : List (Option ℚ))
    (h2 : returns.length < 2) :
    calculate_portfolio_metrics returns = ⟨0, 0, 0, 0⟩ := by
  simp [calculate_portfolio_metrics, h2]

lemma calculate_portfolio_metrics_nan (returns : List (Option ℚ))
    (hmt : returns.filterMap id = []) :
    calculate_portfolio_metrics returns = ⟨0, 0, 0, 0⟩ := by
  by_cases h2 : returns.length < 2
  · simp [calculate_portfolio_metrics, h2]
  · simp [calculate_portfolio_metrics, h2, hmt]

lemma calculate_portfolio_metrics_main (returns : List (Option ℚ))
    (h2 : ¬ returns.length < 2) (hne : returns.filterMap id ≠ []) :
    calculate_portfolio_metrics returns =
      ⟨cagr_of (returns.filterMap id), vol_of (returns.filterMap id),
        sharpe_of (returns.filterMap id), maxDrawdown (returns.filterMap id)⟩ := by
  simp [calculate_portfolio_metrics, h2, hne]

lemma metrics_main_CAGR (returns : List (Option ℚ))
    (h2 : ¬ returns.length < 2) (hne : returns.filterMap id ≠ []) :
    (calculate_portfolio_metrics returns).CAGR = cagr_of (returns.filterMap id) := by
  rw [calculate_portfolio_metrics_main returns h2 hne]

lemma metrics_main_Vol (returns : List (Option ℚ))
    (h2 : ¬ returns.length < 2) (hne : returns.filterMap id ≠ []) :
    (calculate_portfolio_metrics returns).Vol = vol_of (returns.filterMap id) := by
  rw [calculate_portfolio_metrics_main returns h2 hne]

lemma metrics_main_Sharpe (returns : List (Option ℚ))
    (h2 : ¬ returns.length < 2) (hne : returns.filterMap id ≠ []) :
    (calculate_portfolio_metrics returns).Sharpe = sharpe_of (returns.filterMap id) := by
  rw [calculate_portfolio_metrics_main returns h2 hne]

lemma metrics_main_MaxDD (returns : List (Option ℚ))
    (h2 : ¬ returns.length < 2) (hne : returns.filterMap id ≠ []) :
    (calculate_portfolio_metrics returns).MaxDD = maxDrawdown (returns.filterMap id) := by
  rw [calculate_portfolio_metrics_main returns h2 hne]

/-- Claim C5: the metrics computation returns exactly the all-zero
sentinel, never raising, when the input value series has fewer than 2
observations, when the returns series it receives has fewer than 2
entries, and when all returns are missing after dropping missing values
(`dropna` leaves nothing).  The embedding is a total function, so
absence of exceptions is inherent. -/
theorem calculate_portfolio_metrics_sentinel (values : List ℚ)
    (returns : List (Option ℚ)) :
    (values.length < 2 → metrics_of_values values = ⟨0, 0, 0, 0⟩) ∧
    (returns.length < 2 → calculate_portfolio_metrics returns = ⟨0, 0, 0, 0⟩) ∧
    (returns.filterMap id = [] →
      calculate_portfolio_metrics returns = ⟨0, 0, 0, 0⟩) := by
  refine ⟨?_, calculate_portfolio_metrics_short returns,
    calculate_portfolio_metrics_nan returns⟩
  intro hlen
  unfold metrics_of_values
  apply calculate_portfolio_metrics_short
  rw [length_calculate_returns_series]
  exact hlen

/-- Claim C6: Sharpe is `(CAGR - risk_free_rate) / Vol` when `Vol` is
nonzero and `0` when `Vol = 0` (the division is guarded, so the result is
a well-defined real number); and an all-zero returns series yields
`Vol = 0`, `Sharpe = 0` and `MaxDD = 0`. -/
theorem calculate_portfolio_metrics_sharpe_guard (returns : List (Option ℚ)) :
    ((calculate_portfolio_metrics returns).Vol ≠ 0 →
      (calculate_portfolio_metrics returns).Sharpe =
        ((calculate_portfolio_metrics returns).CAGR - RISK_FREE_RATE) /
          (calculate_portfolio_metrics returns).Vol) ∧
    ((calculate_portfolio_metrics returns).Vol = 0 →
      (calculate_portfolio_metrics returns).Sharpe = 0) ∧
    ((∀ x ∈ returns, x = some 0) →
      (calculate_portfolio_metrics returns).Vol = 0 ∧
      (calculate_portfolio_metrics returns).Sharpe = 0 ∧
      (calculate_portfolio_metrics returns).MaxDD = 0) := by
  by_cases h2 : returns.length < 2
  · rw [calculate_portfolio_metrics_short returns h2]
    simp
  · by_cases hmt : returns.filterMap id = []
    · rw [calculate_portfolio_metrics_nan returns hmt]
      simp
    · have hVol := metrics_main_Vol returns h2 hmt
      have hSharpe := metrics_main_Sharpe returns h2 hmt
      have hCAGR := metrics_main_CAGR returns h2 hmt
      have hMaxDD := metrics_main_MaxDD returns h2 hmt
      refine ⟨?_, ?_, ?_⟩
      · intro hvol
        rw [hVol] at hvol
        rw [hSharpe, hVol, hCAGR]
        unfold sharpe_of
        rw [if_pos hvol]
      · intro hvol
        rw [hVol] at hvol
        rw [hSharpe]
        unfold sharpe_of
        rw [if_neg (by simp [hvol])]
      · intro hz
        have hretz := filterMap_id_all_zero returns hz
        have hv : vol_of (returns.filterMap id) = 0 := vol_of_all_zero _ hretz
        refine ⟨by rw [hVol]; exact hv, ?_, by
          rw [hMaxDD]; exact maxDrawdown_all_zero _ hretz⟩
        rw [hSharpe]
        unfold sharpe_of
        rw [if_neg (by simp [hv])]

/-- Claim C4 (amended): the annualized volatility of the metrics pipeline
on an N-observation value series is the standard deviation of the
pipeline's returns series — which starts with a synthetic `0` return for
the first observation, `pct_change().fillna(0)` — multiplied by
`sqrt 252`; and the volatility is `0` whenever the surviving returns
number fewer than 2.  (A 2-observation value series therefore yields TWO
returns `[0, r₂]`, not one, and a generally nonzero volatility.) -/
theorem metrics_pipeline_vol_formula (values : List ℚ)
    (returns : List (Option ℚ)) (h2 : 2 ≤ values.length) :
    (metrics_of_values values).Vol =
      Real.sqrt (sampleVar (0 :: spec_simple_returns values)) * Real.sqrt 252 ∧
    ((returns.filterMap id).length < 2 →
      (calculate_portfolio_metrics returns).Vol = 0) := by
  constructor
  · obtain ⟨v, t, rfl⟩ : ∃ v t, values = v :: t := by
      cases values with
      | nil => simp at h2
      | cons v t => exact ⟨v, t, rfl⟩
    have hfm : (calculate_returns_series (v :: t)).filterMap id =
        0 :: spec_simple_returns (v :: t) := by
      rw [calculate_returns_series_cons]
      simp only [List.filterMap_cons, id, filterMap_id_map_some]
    have hlen2 : ¬ (calculate_returns_series (v :: t)).length < 2 := by
      rw [length_calculate_returns_series]
      omega
    have hne : (calculate_returns_series (v :: t)).filterMap id ≠ [] := by
      rw [hfm]; simp
    unfold metrics_of_values
    rw [metrics_main_Vol _ hlen2 hne, hfm]
    unfold vol_of
    rw [if_pos ?_]
    simp only [List.length_cons, length_spec_simple_returns] at h2 ⊢
    omega
  · intro hshort
    by_cases h2' : returns.length < 2
    · rw [calculate_portfolio_metrics_short returns h2']
    · by_cases hmt : returns.filterMap id = []
      · rw [calculate_portfolio_metrics_nan returns hmt]
      · rw [metrics_main_Vol returns h2' hmt]
        unfold vol_of
        rw [if_neg (by omega)]

/-- Claim C4, witness: the volatility formula instantiated at the value
series `[100, 110]` and the guard at the one-entry returns series
`[some 1]`. -/
theorem metrics_pipeline_vol_formula_witness :
    (metrics_of_values [100, 110]).Vol =
      Real.sqrt (sampleVar (0 :: spec_simple_returns [100, 110])) * Real.sqrt 252 ∧
    ((([some 1] : List (Option ℚ)).filterMap id).length < 2 →
      (calculate_portfolio_metrics [some 1]).Vol = 0) :=
  metrics_pipeline_vol_formula [100, 110] [some 1] (by simp)

/-- Claim C4, counterexample to the claim as stated: the claim says a
2-observation value series yields a single return and hence `Vol = 0`,
but the pipeline's `fillna(0)` produces the 2-entry returns series
`[0, 0.1]` for `[100, 110]`, whose volatility is nonzero. -/
theorem metrics_two_observation_vol_nonzero :
    ([100, 110] : List ℚ).length = 2 ∧ (metrics_of_values [100, 110]).Vol ≠ 0 := by
  refine ⟨by simp, ?_⟩
  have hret : calculate_returns_series [100, 110] = [some 0, some (1/10)] := by
    simp [calculate_returns_series, pct_change, fillna0]
    norm_num
  have hfm : ([some 0, some (1/10)] : List (Option ℚ)).filterMap id =
      [0, 1/10] := by simp
  unfold metrics_of_values
  rw [hret, metrics_main_Vol _ (by norm_num) (by simp), hfm]
  have hsv : sampleVar [0, 1/10] = 1/200 := by
    simp [sampleVar]
    norm_num
  unfold vol_of
  rw [if_pos (by simp), hsv]
  have h1 : (0 : ℝ) < Real.sqrt ((1/200 : ℚ) : ℝ) := by
    rw [Real.sqrt_pos]
    norm_num
  have h2 : (0 : ℝ) < Real.sqrt 252 := by
    rw [Real.sqrt_pos]
    norm_num
  exact ne_of_gt (mul_pos h1 h2)

/-- Claim C3 (amended): on an all-positive value series of at least 2
observations, the pipeline's returns series is a synthetic zero return
for the first observation followed by `r_t = V_t / V_(t-1) - 1` for
`t = 2..N` (the first observation DOES contribute a zero return, via
`fillna(0)`); MaxDD is the minimum of `C_t / P_t - 1` over the cumulative
growth curve of that augmented series, is non-positive, and equals 0
exactly when the curve never falls below its own running peak. -/
theorem metrics_pipeline_synthetic_first_return (values : List ℚ)
    (h2 : 2 ≤ values.length) (hpos : ∀ v ∈ values, 0 < v) :
    calculate_returns_series values =
      some 0 :: (spec_simple_returns values).map some ∧
    (metrics_of_values values).MaxDD =
      minList (drawdowns (0 :: spec_simple_returns values)) ∧
    (metrics_of_values values).MaxDD ≤ 0 ∧
    ((metrics_of_values values).MaxDD = 0 ↔
      runningMax (cumprod1p (0 :: spec_simple_returns values)) =
        cumprod1p (0 :: spec_simple_returns values)) := by
  obtain ⟨v, t, rfl⟩ : ∃ v t, values = v :: t := by
    cases values with
    | nil => simp at h2
    | cons v t => exact ⟨v, t, rfl⟩
  have hret := calculate_returns_series_cons v t
  have hfm : (calculate_returns_series (v :: t)).filterMap id =
      0 :: spec_simple_returns (v :: t) := by
    rw [hret]
    simp only [List.filterMap_cons, id, filterMap_id_map_some]
  have hlen2 : ¬ (calculate_returns_series (v :: t)).length < 2 := by
    rw [length_calculate_returns_series]
    omega
  have hne : (calculate_returns_series (v :: t)).filterMap id ≠ [] := by
    rw [hfm]; simp
  have hpos1 : ∀ r ∈ 0 :: spec_simple_returns (v :: t), 0 < 1 + r := by
    intro r hr
    rcases List.mem_cons.mp hr with h | h
    · rw [h]; norm_num
    · exact spec_simple_returns_pos _ hpos r h
  have hMaxDD : (metrics_of_values (v :: t)).MaxDD =
      maxDrawdown (0 :: spec_simple_returns (v :: t)) := by
    unfold metrics_of_values
    rw [metrics_main_MaxDD _ hlen2 hne, hfm]
  refine ⟨hret, hMaxDD, ?_, ?_⟩
  · rw [hMaxDD]
    exact maxDrawdown_nonpos _ hpos1
  · rw [hMaxDD]
    exact maxDrawdown_eq_zero_iff _ hpos1

/-- Claim C3, witness: the amended statement instantiated at the value
series `[100, 110, 99]`. -/
theorem metrics_pipeline_synthetic_first_return_witness :
    calculate_returns_series [100, 110, 99] =
      some 0 :: (spec_simple_returns [100, 110, 99]).map some ∧
    (metrics_of_values [100, 110, 99]).MaxDD =
      minList (drawdowns (0 :: spec_simple_returns [100, 110, 99])) ∧
    (metrics_of_values [100, 110, 99]).MaxDD ≤ 0 ∧
    ((metrics_of_values [100, 110, 99]).MaxDD = 0 ↔
      runningMax (cumprod1p (0 :: spec_simple_returns [100, 110, 99])) =
        cumprod1p (0 :: spec_simple_returns [100, 110, 99])) :=
  metrics_pipeline_synthetic_first_return [100, 110, 99] (by simp)
    (by
      intro v hv
      simp only [List.mem_cons, List.not_mem_nil, or_false] at hv
      rcases hv with h | h | h <;> rw [h] <;> norm_num)

/-- Claim C3, counterexample to the claim as stated: on the 2-observation
series `[100, 90]` the code's MaxDD is `-1/10` (the synthetic zero first
return puts `C = [1, 0.9]` against peak `[1, 1]`), while the claimed
formula over the returns `r_2..r_N` only gives `0` (`C = [0.9]` equals
its own running peak). -/
theorem metrics_pipeline_first_return_included_counterexample :
    (metrics_of_values [100, 90]).MaxDD = -(1/10) ∧
    spec_maxDrawdown [100, 90] = 0 ∧
    (-(1/10) : ℚ) ≠ 0 := by
  refine ⟨?_, ?_, by norm_num⟩
  · have hret : calculate_returns_series [100, 90] = [some 0, some (-(1/10))] := by
      simp [calculate_returns_series, pct_change, fillna0]
      norm_num
    have hfm : ([some 0, some (-(1/10))] : List (Option ℚ)).filterMap id =
        [0, -(1/10)] := by simp
    unfold metrics_of_values
    rw [hret, metrics_main_MaxDD _ (by norm_num) (by simp), hfm]
    have hcurve : cumprod1p [0, -(1/10)] = [1, 9/10] := by
      simp [cumprod1p, cumprod1pAux]
      norm_num
    have hpeak : runningMax [1, (9/10 : ℚ)] = [1, 1] := by
      simp only [runningMax, runningMaxAux]
      rw [max_eq_left (by norm_num : (9/10 : ℚ) ≤ 1)]
    have hdd : drawdowns [0, -(1/10)] = [0, -(1/10)] := by
      rw [drawdowns, hcurve, hpeak]
      simp [List.zip_cons_cons]
      norm_num
    rw [maxDrawdown, hdd]
    show List.foldl min 0 [-(1/10)] = -(1/10)
    simp only [List.foldl_cons, List.foldl_nil]
    rw [min_eq_right (by norm_num : (-(1/10) : ℚ) ≤ 0)]
  · have hs : spec_simple_returns [100, 90] = [-(1/10)] := by
      simp [spec_simple_returns]
      norm_num
    rw [spec_maxDrawdown, hs]
    have hcurve : cumprod1p [-(1/10)] = [9/10] := by
      simp [cumprod1p, cumprod1pAux]
      norm_num
    rw [maxDrawdown, drawdowns, hcurve]
    simp only [runningMax, runningMaxAux, List.zip_cons_cons, List.zip_nil_right,
      List.map_cons, List.map_nil]
    have : (9/10 : ℚ) / (9/10) - 1 = 0 := by norm_num
    rw [this]
    rfl

end CorpBonds
